import Mathlib

/-
Verification of the coverage pipeline of `overalls.go` (package main).

The program discovers test directories of a project tree, runs one worker
per directory, and merges the per-directory coverage artifacts:

  modeRegex   = regexp.MustCompile("mode: [a-z]+\n")         -- line 59
  final := buff.String()                                     -- line 266
  final = modeRegex.ReplaceAllString(final, "")              -- line 267
  final = "mode: " + coverFlag + "\n" + final                -- line 268

Strings are modelled as lists of characters (`Str`).  The regex
replacement is modelled as a left-to-right scan removing each
leftmost match and continuing after it, which is exactly what
`Regexp.ReplaceAllString` with the pattern `mode: [a-z]+\n` does:
a match at a position exists iff the position starts with "mode: ",
is followed by a maximal nonempty run of lowercase letters (the
greedy `[a-z]+`), and then a newline.
-/

abbrev Str := List Char

def str (s : String) : Str := s.toList

/-- The literal characters of the fixed part "mode: " of the pattern at line 59. -/
def modeSpL : Str := ['m', 'o', 'd', 'e', ':', ' ']

/-- The character class `[a-z]` of the pattern at line 59. -/
def isLowerAZ (c : Char) : Bool := 'a' ≤ c && c ≤ 'z'

/-- One match attempt of the pattern `mode: [a-z]+\n` at the head of `l`
(line 59).  On success it returns the remainder of the input after the
match.  `[a-z]+` is greedy, so the run of lowercase letters is maximal
and must be followed directly by a newline. -/
def matchModeLine (l : Str) : Option Str :=
  if modeSpL.isPrefixOf l then
    if (List.takeWhile isLowerAZ (l.drop 6)).isEmpty then none
    else
      match List.dropWhile isLowerAZ (l.drop 6) with
      | '\n' :: r => some r
      | _ => none
  else none

/-- Fuel-indexed scan of `ReplaceAllString(final, "")` (line 267): find each
leftmost match of the pattern, delete it, and continue scanning after it. -/
def stripModeAux : Nat → Str → Str
  | 0, l => l
  | _ + 1, [] => []
  | f + 1, c :: cs =>
    match matchModeLine (c :: cs) with
    | some rest => stripModeAux f rest
    | none => c :: stripModeAux f cs

/-- `modeRegex.ReplaceAllString(final, "")` at line 267. -/
def stripModeHeaders (l : Str) : Str := stripModeAux l.length l

/-- The header prepended at line 268: `"mode: " + coverFlag + "\n"`. -/
def headerLine (m : Str) : Str := modeSpL ++ m ++ ['\n']

/-- The aggregation step of `testFiles` (lines 260-268): concatenate the
delivered artifacts in arrival order, strip every pattern match, and
prepend the single header for the configured mode. -/
def mergeArtifacts (cfg : Str) (arts : List Str) : Str :=
  headerLine cfg ++ stripModeHeaders arts.flatten

/-- A mode token accepted by `[a-z]+`: nonempty, all lowercase letters. -/
def validModeTok (m : Str) : Prop := m ≠ [] ∧ ∀ c ∈ m, isLowerAZ c = true

instance (m : Str) : Decidable (validModeTok m) := by
  unfold validModeTok; infer_instance

-- ### Basic facts about `matchModeLine`

lemma matchModeLine_some_length {l r : Str} (h : matchModeLine l = some r) :
    r.length < l.length := by
  unfold matchModeLine at h
  split at h
  · next hpre =>
    split at h
    · exact absurd h (by simp)
    · next hrun =>
      split at h
      · next c r' heq =>
        have hpre' : modeSpL <+: l := List.isPrefixOf_iff_prefix.mp hpre
        have hlen6 : 6 ≤ l.length := by
          have := hpre'.length_le
          simpa [modeSpL] using this
        have hsub : (List.dropWhile isLowerAZ (l.drop 6)).length ≤ (l.drop 6).length :=
          (List.dropWhile_suffix isLowerAZ).sublist.length_le
        rw [heq] at hsub
        simp only [List.length_cons, List.length_drop] at hsub
        cases h
        omega
      · exact absurd h (by simp)
  · exact absurd h (by simp)

lemma stripModeAux_congr :
    ∀ (f₁ f₂ : Nat) (l : Str), l.length ≤ f₁ → l.length ≤ f₂ →
      stripModeAux f₁ l = stripModeAux f₂ l := by
  intro f₁
  induction f₁ with
  | zero =>
    intro f₂ l h₁ _
    have : l = [] := List.length_eq_zero.mp (Nat.le_zero.mp h₁)
    subst this
    cases f₂ <;> rfl
  | succ f ih =>
    intro f₂ l h₁ h₂
    cases l with
    | nil => cases f₂ <;> rfl
    | cons c cs =>
      cases f₂ with
      | zero => simp at h₂
      | succ g =>
        simp only [stripModeAux]
        cases hm : matchModeLine (c :: cs) with
        | some rest =>
          have hlt := matchModeLine_some_length hm
          simp only [List.length_cons] at hlt h₁ h₂
          exact ih g rest (by omega) (by omega)
        | none =>
          simp only [List.length_cons] at h₁ h₂
          rw [ih g cs (by omega) (by omega)]

lemma stripModeHeaders_nil : stripModeHeaders [] = [] := rfl

lemma stripModeHeaders_cons_none {c : Char} {cs : Str}
    (h : matchModeLine (c :: cs) = none) :
    stripModeHeaders (c :: cs) = c :: stripModeHeaders cs := by
  unfold stripModeHeaders
  simp only [List.length_cons, stripModeAux, h]

lemma stripModeHeaders_match {l r : Str} (h : matchModeLine l = some r) :
    stripModeHeaders l = stripModeHeaders r := by
  cases l with
  | nil => simp [matchModeLine, modeSpL, List.isPrefixOf] at h
  | cons c cs =>
    have hlt := matchModeLine_some_length h
    unfold stripModeHeaders
    simp only [List.length_cons, stripModeAux, h]
    exact stripModeAux_congr cs.length r.length r
      (by simp only [List.length_cons] at hlt; omega) (Nat.le_refl _)

-- ### The pattern matches exactly the well-formed headers

lemma takeWhile_append_all {p : Char → Bool} :
    ∀ {m : Str} {x : Char} {s : Str}, (∀ c ∈ m, p c = true) → p x = false →
      (m ++ x :: s).takeWhile p = m ∧ (m ++ x :: s).dropWhile p = x :: s := by
  intro m
  induction m with
  | nil =>
    intro x s _ hx
    simp [List.takeWhile, List.dropWhile, hx]
  | cons c m' ih =>
    intro x s hm hx
    have hc : p c = true := hm c (by simp)
    have h2 := ih (x := x) (s := s) (fun d hd => hm d (by simp [hd])) hx
    simp [List.takeWhile, List.dropWhile, hc, h2.1, h2.2]

lemma matchModeLine_header {m : Str} (s : Str) (hm : validModeTok m) :
    matchModeLine (modeSpL ++ m ++ '\n' :: s) = some s := by
  obtain ⟨hne, hlow⟩ := hm
  have hw := takeWhile_append_all (p := isLowerAZ) (x := '\n') (s := s) hlow (by decide)
  have hdrop : (modeSpL ++ m ++ '\n' :: s).drop 6 = m ++ '\n' :: s := by
    rw [List.append_assoc]
    exact List.drop_left modeSpL (m ++ '\n' :: s)
  have hpre : modeSpL.isPrefixOf (modeSpL ++ m ++ '\n' :: s) = true := by
    rw [List.append_assoc]
    exact List.isPrefixOf_iff_prefix.mpr (List.prefix_append _ _)
  unfold matchModeLine
  rw [if_pos hpre, hdrop, hw.1, hw.2]
  rw [if_neg (by simpa [List.isEmpty_iff] using hne)]
  rfl

lemma matchModeLine_none {l : Str} (h : ¬ modeSpL <+: l) : matchModeLine l = none := by
  unfold matchModeLine
  rw [if_neg fun hb => h (List.isPrefixOf_iff_prefix.mp hb)]

-- ### Scanning past match-free text

lemma strip_skip {l : Str} :
    ∀ p : Str, (∀ q : Str, q <:+ p → q ≠ [] → matchModeLine (q ++ l) = none) →
      stripModeHeaders (p ++ l) = p ++ stripModeHeaders l := by
  intro p
  induction p with
  | nil => intro _; simp
  | cons c p' ih =>
    intro h
    have h0 : matchModeLine ((c :: p') ++ l) = none :=
      h (c :: p') (List.suffix_refl _) (by simp)
    rw [List.cons_append] at h0
    rw [List.cons_append, stripModeHeaders_cons_none h0,
      ih (fun q hq hne => h q (hq.trans (List.suffix_cons c p')) hne), List.cons_append]

lemma modeSpL_no_border :
    ∀ k, k < 6 → 1 ≤ k → List.drop k modeSpL ≠ List.take (6 - k) modeSpL := by decide

lemma no_span_match {p q x : Str} (hp : ¬ modeSpL <:+: p) (hq : q <:+ p) (hne : q ≠ []) :
    ¬ modeSpL <+: (q ++ (modeSpL ++ x)) := by
  intro hpre
  rcases Nat.lt_or_ge q.length 6 with hk | hk
  · have hq1 : 1 ≤ q.length := by
      cases q with
      | nil => simp at hne
      | cons _ _ => simp
    have heq : modeSpL = List.take 6 (q ++ (modeSpL ++ x)) := by
      have h6 : modeSpL.length = 6 := rfl
      have := List.prefix_iff_eq_take.mp hpre
      rwa [h6] at this
    rw [List.take_append_eq_append_take,
      List.take_of_length_le (l := q) (by omega),
      List.take_append_of_le_length (by simp [modeSpL])] at heq
    have hdrop : List.drop q.length modeSpL = List.take (6 - q.length) modeSpL := by
      conv_lhs => rw [heq]
      rw [List.drop_left]
    exact modeSpL_no_border q.length hk hq1 hdrop
  · have hqq : modeSpL <+: q := by
      apply List.prefix_of_prefix_length_le hpre (List.prefix_append q (modeSpL ++ x))
      simpa [modeSpL] using hk
    obtain ⟨w, hw⟩ := hqq
    obtain ⟨u, hu⟩ := hq
    exact hp ⟨u, w, by rw [List.append_assoc, hw, hu]⟩

lemma no_match_end {p q : Str} (hp : ¬ modeSpL <:+: p) (hq : q <:+ p) :
    ¬ modeSpL <+: q := by
  intro hpre
  obtain ⟨w, hw⟩ := hpre
  obtain ⟨u, hu⟩ := hq
  exact hp ⟨u, w, by rw [List.append_assoc, hw, hu]⟩

lemma strip_clean_then {d l : Str} (hd : ¬ modeSpL <:+: d)
    (hl : l = [] ∨ ∃ l', l = modeSpL ++ l') :
    stripModeHeaders (d ++ l) = d ++ stripModeHeaders l := by
  apply strip_skip
  intro q hq hne
  apply matchModeLine_none
  rcases hl with rfl | ⟨l', rfl⟩
  · rw [List.append_nil]
    exact no_match_end hd hq
  · exact no_span_match hd hq hne

/-- The sub-artifact with declared mode `p.1` and data part `p.2`, as read
from a worker's `profile.coverprofile`. -/
def artifactOf (p : Str × Str) : Str := headerLine p.1 ++ p.2

lemma strip_join : ∀ ps : List (Str × Str),
    (∀ p ∈ ps, validModeTok p.1 ∧ ¬ modeSpL <:+: p.2) →
    stripModeHeaders (ps.map artifactOf).flatten = (ps.map Prod.snd).flatten := by
  intro ps
  induction ps with
  | nil => intro _; simpa using stripModeHeaders_nil
  | cons a tl ih =>
    intro h
    have ha := h a (by simp)
    have htl : ∀ p ∈ tl, validModeTok p.1 ∧ ¬ modeSpL <:+: p.2 :=
      fun p hp => h p (by simp [hp])
    simp only [List.map_cons, List.flatten_cons]
    have hassoc : artifactOf a ++ (tl.map artifactOf).flatten
        = modeSpL ++ a.1 ++ '\n' :: (a.2 ++ (tl.map artifactOf).flatten) := by
      simp [artifactOf, headerLine, List.append_assoc]
    rw [hassoc, stripModeHeaders_match (matchModeLine_header _ ha.1),
      strip_clean_then ha.2 ?_, ih htl]
    cases tl with
    | nil => left; simp
    | cons b tl' =>
      right
      refine ⟨b.1 ++ '\n' :: b.2 ++ (tl'.map artifactOf).flatten, ?_⟩
      simp [artifactOf, headerLine, List.append_assoc]

/-- C1: the merged report is exactly one mode-declaration line for the
configured mode followed by the concatenation of the sub-artifacts' data
parts: every sub-artifact's own mode-declaration line, whatever mode it
names, is stripped by the `ReplaceAllString` at line 267, and the single
configured header is prepended at line 268.  Hypotheses: each declared
mode token is a nonempty lowercase word (the only form `go test` emits,
and the only form the pattern `mode: [a-z]+` describes), and no data part
contains the six characters "mode: " as a substring (coverage data lines
are `file.go:L.C,L.C n m` records, which never contain "mode: "). -/
theorem C1_merged_report_single_header (cfg : Str) (ps : List (Str × Str))
    (h : ∀ p ∈ ps, validModeTok p.1 ∧ ¬ modeSpL <:+: p.2) :
    mergeArtifacts cfg (ps.map artifactOf)
      = headerLine cfg ++ (ps.map Prod.snd).flatten := by
  unfold mergeArtifacts
  rw [strip_join ps h]

/-- Witness for C1: two sub-artifacts declaring differing modes (`set` and
`atomic`) merge under configured mode `count` into the single `count`
header followed by both data lines. -/
theorem C1_witness :
    mergeArtifacts (str "count")
        ([(str "set", str "a.go:1.1,2.2 1 1\n"),
          (str "atomic", str "b.go:3.3,4.4 2 0\n")].map artifactOf)
      = headerLine (str "count")
        ++ ([(str "set", str "a.go:1.1,2.2 1 1\n"),
             (str "atomic", str "b.go:3.3,4.4 2 0\n")].map Prod.snd).flatten :=
  C1_merged_report_single_header _ _ (by decide)

-- ### Headers with an invalid mode token are not matched

lemma dropWhile_stops {t : Str} (u : Str) (hx : ∃ c ∈ t, isLowerAZ c = false) :
    ∃ x xs, List.dropWhile isLowerAZ (t ++ u) = x :: xs ∧ isLowerAZ x = false ∧ x ∈ t := by
  induction t with
  | nil => simp at hx
  | cons c t' ih =>
    by_cases hc : isLowerAZ c = true
    · obtain ⟨d, hd, hdf⟩ := hx
      have hd' : d ∈ t' := by
        rcases List.mem_cons.mp hd with rfl | hmem
        · rw [hc] at hdf; cases hdf
        · exact hmem
      obtain ⟨x, xs, h1, h2, h3⟩ := ih ⟨d, hd', hdf⟩
      refine ⟨x, xs, ?_, h2, List.mem_cons_of_mem _ h3⟩
      simpa [List.dropWhile_cons, hc] using h1
    · refine ⟨c, t' ++ u, ?_, by simpa using hc, by simp⟩
      simp [List.dropWhile_cons, hc]

lemma matchModeLine_invalid_tok {t : Str} (hx : ∃ c ∈ t, isLowerAZ c = false)
    (hn : '\n' ∉ t) :
    matchModeLine (modeSpL ++ t ++ ['\n']) = none := by
  have hdrop : (modeSpL ++ t ++ ['\n']).drop 6 = t ++ ['\n'] := by
    rw [List.append_assoc]
    exact List.drop_left modeSpL (t ++ ['\n'])
  have hpre : modeSpL.isPrefixOf (modeSpL ++ t ++ ['\n']) = true := by
    rw [List.append_assoc]
    exact List.isPrefixOf_iff_prefix.mpr (List.prefix_append _ _)
  obtain ⟨x, xs, h1, h2, h3⟩ := dropWhile_stops (t := t) ['\n'] hx
  have hxne : x ≠ '\n' := fun he => hn (he ▸ h3)
  unfold matchModeLine
  rw [if_pos hpre, hdrop]
  by_cases hrun : (List.takeWhile isLowerAZ (t ++ ['\n'])).isEmpty = true
  · rw [if_pos hrun]
  · rw [if_neg hrun, h1]
    split
    · next r heq =>
      injection heq with hx1 _
      exact absurd hx1 hxne
    · rfl

lemma strip_invalid_header {t : Str} (hx : ∃ c ∈ t, isLowerAZ c = false)
    (hn : '\n' ∉ t)
    (hnoM : ¬ modeSpL <:+: ('o' :: 'd' :: 'e' :: ':' :: ' ' :: (t ++ ['\n']))) :
    stripModeHeaders (modeSpL ++ t ++ ['\n']) = modeSpL ++ t ++ ['\n'] := by
  have hw : modeSpL ++ t ++ ['\n']
      = 'm' :: ('o' :: 'd' :: 'e' :: ':' :: ' ' :: (t ++ ['\n'])) := by
    simp [modeSpL]
  have hmain : stripModeHeaders ((modeSpL ++ t ++ ['\n']) ++ [])
      = (modeSpL ++ t ++ ['\n']) ++ stripModeHeaders [] := by
    apply strip_skip
    intro q hq hqne
    rw [List.append_nil]
    rw [hw] at hq
    rcases List.suffix_cons_iff.mp hq with rfl | hq'
    · rw [← hw]
      exact matchModeLine_invalid_tok hx hn
    · apply matchModeLine_none
      intro hpre
      obtain ⟨w, hw2⟩ := hpre
      obtain ⟨u, hu⟩ := hq'
      exact hnoM ⟨u, w, by rw [List.append_assoc, hw2, hu]⟩
  simpa using hmain

/-- C9: header stripping at line 267 removes matches of `mode: [a-z]+\n`
anywhere in the concatenated blob, not only at line starts (first
conjunct: a header directly preceded by arbitrary "mode: "-free text `p`,
even without a preceding newline, is deleted and the scan continues after
it), while a header whose token contains any character outside `a`-`z` is
not removed (second conjunct; its last hypothesis says the characters
after the leading `m` contain no further "mode: " occurrence). -/
theorem C9_strip_anywhere_lowercase_only :
    (∀ p m s₂ : Str, ¬ modeSpL <:+: p → validModeTok m →
      stripModeHeaders (p ++ modeSpL ++ m ++ '\n' :: s₂) = p ++ stripModeHeaders s₂)
    ∧ (∀ t : Str, (∃ c ∈ t, isLowerAZ c = false) → '\n' ∉ t →
      ¬ modeSpL <:+: ('o' :: 'd' :: 'e' :: ':' :: ' ' :: (t ++ ['\n'])) →
      stripModeHeaders (modeSpL ++ t ++ ['\n']) = modeSpL ++ t ++ ['\n']) := by
  constructor
  · intro p m s₂ hp hm
    have h1 : stripModeHeaders (p ++ (modeSpL ++ (m ++ '\n' :: s₂)))
        = p ++ stripModeHeaders (modeSpL ++ (m ++ '\n' :: s₂)) := by
      apply strip_skip
      intro q hq hqne
      exact matchModeLine_none (no_span_match hp hq hqne)
    have h2 : stripModeHeaders (modeSpL ++ m ++ '\n' :: s₂) = stripModeHeaders s₂ :=
      stripModeHeaders_match (matchModeLine_header _ hm)
    rw [List.append_assoc] at h2
    simp only [List.append_assoc]
    rw [h1, h2]
  · intro t hx hn hnoM
    exact strip_invalid_header hx hn hnoM

/-- Witness for C9: `mode: set\n` is deleted mid-line after the text
`"ab "`, while `mode: A1\n` (uppercase and digit in the token) survives
unchanged. -/
theorem C9_witness :
    stripModeHeaders (str "ab " ++ modeSpL ++ str "set" ++ '\n' :: str "cd")
        = str "ab " ++ stripModeHeaders (str "cd")
    ∧ stripModeHeaders (modeSpL ++ str "A1" ++ ['\n'])
        = modeSpL ++ str "A1" ++ ['\n'] :=
  ⟨C9_strip_anywhere_lowercase_only.1 (str "ab ") (str "set") (str "cd")
      (by decide) (by decide),
   C9_strip_anywhere_lowercase_only.2 (str "A1") (by decide) (by decide) (by decide)⟩

-- ### Data built from complete lines cannot contain "mode: " across lines

lemma prefix_stop_sep {sep : Char} :
    ∀ (a pat b : Str), sep ∉ pat → pat <+: (a ++ sep :: b) → pat <+: a := by
  intro a
  induction a with
  | nil =>
    intro pat b hs hp
    cases pat with
    | nil => exact List.nil_prefix
    | cons c p' =>
      obtain ⟨t, ht⟩ := hp
      rw [List.nil_append] at ht
      rw [List.cons_append] at ht
      injection ht with h1 _
      exact absurd (h1 ▸ List.mem_cons_self c p') hs
  | cons x a' ih =>
    intro pat b hs hp
    cases pat with
    | nil => exact List.nil_prefix
    | cons c p' =>
      obtain ⟨t, ht⟩ := hp
      rw [List.cons_append, List.cons_append] at ht
      injection ht with h1 h2
      subst h1
      obtain ⟨t', ht'⟩ := ih p' b (fun hm => hs (List.mem_cons_of_mem _ hm)) ⟨t, h2⟩
      exact ⟨t', by rw [List.cons_append, ht']⟩

lemma infix_split_sep {sep : Char} :
    ∀ (a : Str) {pat : Str} (b : Str), sep ∉ pat → pat <:+: (a ++ sep :: b) →
      pat <:+: a ∨ pat <:+: b := by
  intro a
  induction a with
  | nil =>
    intro pat b hs hi
    rw [List.nil_append] at hi
    rcases List.infix_cons_iff.mp hi with hp | hi'
    · have : pat <+: [] := prefix_stop_sep [] pat b hs (by simpa using hp)
      left
      rw [List.prefix_nil.mp this]
    · right; exact hi'
  | cons x a' ih =>
    intro pat b hs hi
    rw [List.cons_append] at hi
    rcases List.infix_cons_iff.mp hi with hp | hi'
    · left
      exact (prefix_stop_sep (x :: a') pat b hs (by rwa [List.cons_append])).isInfix
    · rcases ih b hs hi' with hia | hib
      · left; exact List.infix_cons_iff.mpr (Or.inr hia)
      · right; exact hib

/-- The data part of an artifact given as a list of complete lines: each
line's content followed by its terminating newline. -/
def lineBlock (ls : List Str) : Str := (ls.map (fun l => l ++ ['\n'])).flatten

/-- A sub-artifact whose data part consists of the complete lines `p.2`,
headed by a mode-declaration line for `p.1`. -/
def artifactOfLines (p : Str × List Str) : Str := headerLine p.1 ++ lineBlock p.2

lemma modeSpL_not_infix_lineBlock :
    ∀ (ls : List Str), (∀ l ∈ ls, '\n' ∉ l ∧ ¬ modeSpL <:+: l) →
      ¬ modeSpL <:+: lineBlock ls := by
  intro ls
  induction ls with
  | nil =>
    intro _ hi
    have := List.infix_nil.mp (by simpa [lineBlock] using hi)
    simp [modeSpL] at this
  | cons l rest ih =>
    intro h hi
    have hassoc : lineBlock (l :: rest) = l ++ '\n' :: lineBlock rest := by
      simp [lineBlock, List.append_assoc]
    rw [hassoc] at hi
    rcases infix_split_sep l (lineBlock rest) (by decide) hi with hia | hib
    · exact (h l (by simp)).2 hia
    · exact ih (fun x hx => h x (by simp [hx])) hib

lemma merge_lines_eq (cfg : Str) (ps : List (Str × List Str))
    (hps : ∀ p ∈ ps, validModeTok p.1 ∧ ∀ l ∈ p.2, '\n' ∉ l ∧ ¬ modeSpL <:+: l) :
    mergeArtifacts cfg (ps.map artifactOfLines)
      = headerLine cfg ++ (ps.map (fun p => lineBlock p.2)).flatten := by
  have hkey := strip_join (ps.map (fun p => (p.1, lineBlock p.2))) ?_
  · unfold mergeArtifacts
    rw [List.map_map, List.map_map] at hkey
    exact congrArg (headerLine cfg ++ ·) hkey
  · intro q hq
    obtain ⟨p, hp, rfl⟩ := List.mem_map.mp hq
    exact ⟨(hps p hp).1, modeSpL_not_infix_lineBlock p.2 (hps p hp).2⟩

/-- C2: for every pair of arrival orders of the same multiset of delivered
sub-artifacts (given as a mode token plus a list of complete data lines),
the merged output is the configured header followed by the concatenation
of exactly the delivered data lines, once each (first two conjuncts), the
multiset of data lines is unchanged by the permutation (third conjunct),
and every data line occurs the same number of times under both orders
(fourth conjunct); only the order of data lines may differ, never the
single header. -/
theorem C2_data_lines_once_order_insensitive (cfg : Str)
    (ps₁ ps₂ : List (Str × List Str)) (hperm : List.Perm ps₁ ps₂)
    (h : ∀ p ∈ ps₁, validModeTok p.1 ∧ ∀ l ∈ p.2, '\n' ∉ l ∧ ¬ modeSpL <:+: l) :
    mergeArtifacts cfg (ps₁.map artifactOfLines)
        = headerLine cfg ++ (ps₁.map (fun p => lineBlock p.2)).flatten
    ∧ mergeArtifacts cfg (ps₂.map artifactOfLines)
        = headerLine cfg ++ (ps₂.map (fun p => lineBlock p.2)).flatten
    ∧ List.Perm (ps₁.map Prod.snd).flatten (ps₂.map Prod.snd).flatten
    ∧ ∀ l : Str, List.countP (fun x => decide (x = l)) (ps₁.map Prod.snd).flatten
        = List.countP (fun x => decide (x = l)) (ps₂.map Prod.snd).flatten := by
  have h₂ : ∀ p ∈ ps₂, validModeTok p.1 ∧ ∀ l ∈ p.2, '\n' ∉ l ∧ ¬ modeSpL <:+: l :=
    fun p hp => h p (hperm.mem_iff.mpr hp)
  refine ⟨merge_lines_eq cfg ps₁ h, merge_lines_eq cfg ps₂ h₂,
    (hperm.map Prod.snd).flatten,
    fun l => ((hperm.map Prod.snd).flatten).countP_eq (fun x => decide (x = l))⟩

/-- Witness for C2: two sub-artifacts delivered in either order. -/
theorem C2_witness :
    mergeArtifacts (str "count")
        ([(str "set", [str "a.go:1.1,2.2 1 1"]),
          (str "atomic", [str "b.go:3.3,4.4 2 0"])].map artifactOfLines)
        = headerLine (str "count")
          ++ ([(str "set", [str "a.go:1.1,2.2 1 1"]),
               (str "atomic", [str "b.go:3.3,4.4 2 0"])].map
                (fun p => lineBlock p.2)).flatten
    ∧ mergeArtifacts (str "count")
        ([(str "atomic", [str "b.go:3.3,4.4 2 0"]),
          (str "set", [str "a.go:1.1,2.2 1 1"])].map artifactOfLines)
        = headerLine (str "count")
          ++ ([(str "atomic", [str "b.go:3.3,4.4 2 0"]),
               (str "set", [str "a.go:1.1,2.2 1 1"])].map
                (fun p => lineBlock p.2)).flatten
    ∧ List.Perm
        ([(str "set", [str "a.go:1.1,2.2 1 1"]),
          (str "atomic", [str "b.go:3.3,4.4 2 0"])].map Prod.snd).flatten
        ([(str "atomic", [str "b.go:3.3,4.4 2 0"]),
          (str "set", [str "a.go:1.1,2.2 1 1"])].map Prod.snd).flatten
    ∧ ∀ l : Str,
        List.countP (fun x => decide (x = l))
          ([(str "set", [str "a.go:1.1,2.2 1 1"]),
            (str "atomic", [str "b.go:3.3,4.4 2 0"])].map Prod.snd).flatten
        = List.countP (fun x => decide (x = l))
          ([(str "atomic", [str "b.go:3.3,4.4 2 0"]),
            (str "set", [str "a.go:1.1,2.2 1 1"])].map Prod.snd).flatten :=
  C2_data_lines_once_order_insensitive (str "count") _ _ (by decide) (by decide)

/-
### The directory walk of `testFiles` (lines 212-253) and `processDIR`

A project tree is modelled as nested directories; `files` holds the names
of the regular files of a directory, `subs` its subdirectories in the
sorted order `filepath.Walk` visits them, and `readable` whether reading
the directory (by `readDirNames` or `Glob`) succeeds.

The walker (lines 216-249) receives each visited directory's path,
computes `rel` by deleting the `projectPath` prefix (line 222; `""` for
the project root itself, since `projectPath` carries a trailing
separator), prunes the subtree when `rel` is in the ignore map
(lines 224-226) by returning `filepath.SkipDir`, and otherwise dispatches
a worker when `filepath.Glob(rel + SEPARATOR + "*_test.go")` is nonempty
(lines 231-246).  Two consequences of the source are modelled exactly:

* For the project root `rel` is `""`, so the glob pattern is the
  ABSOLUTE path `/*_test.go`: it lists the filesystem root directory,
  not the project root.  The parameter `frt` below says whether the
  filesystem root contains an entry matching `*_test.go`.
* The walker's `err` argument is never read.  With the pre-1.16
  `filepath.Walk` used by this code, a directory whose `readDirNames`
  fails has the walker invoked a second time with the error; the body
  runs again identically (`Glob` on an unreadable directory yields no
  matches and no error) and returns nil, so `filepath.Walk` never
  returns an error and the `Fatalf` at lines 251-253 is unreachable.
  Walking simply does not descend below an unreadable directory.

The model assumes no directory entry is itself a directory named like
`*_test.go` (Glob does not distinguish file kinds), that no directory
name contains a glob metacharacter (a name with an unmatched bracket
would make Glob fail and the walker exit at lines 233-236), and `*` of
a glob matches any run of non-separator characters, so a file name
matches `*_test.go` exactly when it ends with `_test.go`.
-/

inductive FTree where
  | node (name : Str) (readable : Bool) (files : List Str) (subs : List FTree)

def FTree.name : FTree → Str
  | .node n _ _ _ => n

/-- The glob pattern suffix `_test.go` of line 231. -/
def testGoSuffix : Str := ['_', 't', 'e', 's', 't', '.', 'g', 'o']

/-- Whether a file name matches the glob `*_test.go` (line 231). -/
def isTestFile (f : Str) : Bool := testGoSuffix.isSuffixOf f

/-- The relative path of a child directory named `n` below the directory
with relative path `r`: `filepath.Walk` joins with the separator, and
line 222 strips the `projectPath` prefix. -/
def childRel (r n : Str) : Str := if r = [] then n else r ++ '/' :: n

/-- The result of `len(files) != 0` for the glob at line 231 in directory
`rel`: the filesystem root's entries decide the project root (absolute
pattern `/*_test.go`), an unreadable directory yields no matches, and
otherwise the directory's own files are matched. -/
def hasTestHere (frt : Bool) (rel : Str) (readable : Bool) (files : List Str) : Bool :=
  if rel = [] then frt else readable && files.any isTestFile

mutual
/-- The relative paths of the directories dispatched to `processDIR`
(line 246) when walking the tree `t` whose own relative path is `rel`:
pre-order, pruned at ignored paths; an unreadable directory's walker
body runs twice (see the comment above). -/
def walkCands (ign : List Str) (frt : Bool) (rel : Str) : FTree → List Str
  | .node _ readable files subs =>
    if rel ∈ ign then []
    else
      (if hasTestHere frt rel readable files then [rel] else []) ++
        (if readable then walkCandsList ign frt rel subs
         else if hasTestHere frt rel readable files then [rel] else [])

def walkCandsList (ign : List Str) (frt : Bool) (rel : Str) : List FTree → List Str
  | [] => []
  | t :: ts =>
    walkCands ign frt (childRel rel t.name) t ++ walkCandsList ign frt rel ts
end

mutual
/-- The relative paths of every directory the walker is invoked on:
an ignored directory is still visited (then pruned), its descendants are
not; nothing below an unreadable directory is visited either. -/
def walkVisit (ign : List Str) (frt : Bool) (rel : Str) : FTree → List Str
  | .node _ readable _ subs =>
    rel :: (if rel ∈ ign then []
            else if readable then walkVisitList ign frt rel subs else [])

def walkVisitList (ign : List Str) (frt : Bool) (rel : Str) : List FTree → List Str
  | [] => []
  | t :: ts =>
    walkVisit ign frt (childRel rel t.name) t ++ walkVisitList ign frt rel ts
end

mutual
/-- Well-formedness of the modelled tree: every directory name is a
nonempty string without the path separator (true of any real directory
entry). -/
def wfB : FTree → Bool
  | .node _ _ _ subs => wfLB subs

def wfLB : List FTree → Bool
  | [] => true
  | t :: ts => (!decide (t.name = [])) && (!decide ('/' ∈ t.name)) && wfB t && wfLB ts
end

/-- Outcome of one `processDIR` worker (lines 172-210): whether
`cmd.Run()` at line 200 returned nil, and the result of the
`ioutil.ReadFile` of `rel/profile.coverprofile` at line 204. -/
structure WorkerResult where
  exitOk : Bool
  artifact : Option Str

/-- Sequential model of the dispatched workers: any worker whose command
exits nonzero or whose artifact cannot be read calls `logger.Fatal`
(lines 200-207), i.e. `os.Exit(1)`, killing the whole process before the
output file is written; otherwise every artifact is delivered. -/
def runWorkers (wr : Str → WorkerResult) : List Str → Option (List Str)
  | [] => some []
  | c :: cs =>
    if (wr c).exitOk then
      match (wr c).artifact with
      | some a => (runWorkers wr cs).map (a :: ·)
      | none => none
    else none

/-- End-to-end model of `testFiles` (lines 212-273): walk the tree from
the root (relative path `""`), run one worker per dispatched directory,
and on full success write the merged report; `none` means the process
died via `logger.Fatal` and no output file was written.  `filepath.Walk`
itself never returns an error here (see the comment above), so the
`Fatalf` at lines 251-253 contributes no failure case. -/
def testFilesRun (ign : List Str) (frt : Bool) (cfg : Str) (t : FTree)
    (wr : Str → WorkerResult) : Option Str :=
  (runWorkers wr (walkCands ign frt [] t)).map (mergeArtifacts cfg)

/-- `strings.Split(ignoreFlag, ",")` as used at lines 124-127 to build the
ignore map: Go's Split never returns an empty slice, and empty entries
between, before, or after commas become empty-string tokens. -/
def splitComma : Str → List Str
  | [] => [[]]
  | c :: cs =>
    if c = ',' then [] :: splitComma cs
    else
      match splitComma cs with
      | h :: t => (c :: h) :: t
      | [] => [[c]]

/-- The default ignore set `".git,vendor"` (line 52) after splitting. -/
def defaultIgnores : List Str := splitComma (str ".git,vendor")

/-- C3 (code bug, failing input): the claim says a directory is selected
iff it contains a test file, including the project root.  In the code the
project root's relative path is `""`, so its glob pattern (line 231) is
the absolute `/*_test.go` against the FILESYSTEM root.  First conjunct:
a project root containing `main_test.go` is never dispatched (only its
subdirectory `a` is) when the filesystem root has no matching entry.
Second conjunct: a project root with NO test files at all is dispatched
whenever the filesystem root happens to contain a `*_test.go` entry. -/
theorem C3_root_globs_filesystem_root :
    walkCands defaultIgnores false []
        (.node [] true [str "main_test.go"]
          [.node (str "a") true [str "a_test.go"] []])
      = [str "a"]
    ∧ walkCands defaultIgnores true [] (.node [] true [] []) = [[]] := by
  constructor <;> decide

/-- C5 (code bug, failing input): the walker (lines 216-249) never reads
its `err` argument, so a directory whose listing fails (`readable =
false`, here `a`, which even contains a test file) is silently skipped:
`filepath.Walk` returns nil, the `Fatalf` at lines 251-253 never fires,
the walk continues to the later sibling `b`, and the merged report IS
written — the run does not abort. -/
theorem C5_traversal_error_swallowed :
    testFilesRun defaultIgnores false (str "count")
        (.node [] true []
          [.node (str "a") false [str "hidden_test.go"] [],
           .node (str "b") true [str "b_test.go"] []])
        (fun _ => ⟨true, some (str "mode: count\nb.go:1.1,2.2 1 1\n")⟩)
      = some (str "mode: count\nb.go:1.1,2.2 1 1\n") := by
  decide

lemma runWorkers_bad {wr : Str → WorkerResult} :
    ∀ {cs : List Str} {c : Str}, c ∈ cs →
      ((wr c).exitOk = false ∨ (wr c).artifact = none) → runWorkers wr cs = none := by
  intro cs
  induction cs with
  | nil => intro c h; simp at h
  | cons x cs' ih =>
    intro c hc hbad
    rcases List.mem_cons.mp hc with rfl | hmem
    · rcases hbad with h | h
      · simp [runWorkers, h]
      · by_cases he : (wr c).exitOk <;> simp [runWorkers, he, h]
    · by_cases he : (wr x).exitOk
      · cases ha : (wr x).artifact <;> simp [runWorkers, he, ha, ih hmem hbad]
      · simp [runWorkers, he]

/-- C6: if any dispatched worker's test command exits nonzero
(`cmd.Run()` error, line 200) or its coverage artifact cannot be read
(line 204), `logger.Fatal` kills the process: the run produces no merged
output file at all. -/
theorem C6_worker_failure_no_report (ign : List Str) (frt : Bool) (cfg : Str)
    (t : FTree) (wr : Str → WorkerResult) (c : Str)
    (hc : c ∈ walkCands ign frt [] t)
    (hfail : (wr c).exitOk = false ∨ (wr c).artifact = none) :
    testFilesRun ign frt cfg t wr = none := by
  unfold testFilesRun
  rw [runWorkers_bad hc hfail]
  rfl

/-- Witness for C6: directory `a` is dispatched and its worker fails. -/
theorem C6_witness :
    (str "a") ∈ walkCands defaultIgnores false []
        (.node [] true [] [.node (str "a") true [str "a_test.go"] []])
    ∧ testFilesRun defaultIgnores false (str "count")
        (.node [] true [] [.node (str "a") true [str "a_test.go"] []])
        (fun _ => ⟨false, none⟩)
      = none :=
  ⟨by decide,
   C6_worker_failure_no_report _ _ _ _ _ (str "a") (by decide) (Or.inl rfl)⟩

lemma run_of_no_cands (ign : List Str) (frt : Bool) (cfg : Str) (t : FTree)
    (wr : Str → WorkerResult) (h : walkCands ign frt [] t = []) :
    testFilesRun ign frt cfg t wr = some (headerLine cfg) := by
  unfold testFilesRun
  rw [h]
  simp [runWorkers, mergeArtifacts, stripModeHeaders_nil]

/-- C8: a walk that dispatches no directory at all still succeeds, and
the merged output written at lines 266-270 is exactly the single
mode-declaration line for the configured mode. -/
theorem C8_zero_candidates_header_only (ign : List Str) (frt : Bool) (cfg : Str)
    (t : FTree) (wr : Str → WorkerResult) (h : walkCands ign frt [] t = []) :
    testFilesRun ign frt cfg t wr = some (headerLine cfg) :=
  run_of_no_cands ign frt cfg t wr h

/-- Witness for C8: a tree with directories but no test files. -/
theorem C8_witness :
    walkCands defaultIgnores false []
        (.node [] true [str "main.go"] [.node (str "a") true [str "a.go"] []]) = []
    ∧ testFilesRun defaultIgnores false (str "count")
        (.node [] true [str "main.go"] [.node (str "a") true [str "a.go"] []])
        (fun _ => ⟨true, some []⟩)
      = some (headerLine (str "count")) :=
  ⟨by decide,
   C8_zero_candidates_header_only _ _ _ _ _ (by decide)⟩

/-- C10: when the comma-separated ignore list has an empty entry, the
ignore map of lines 124-127 contains the empty string; the project
root's relative path (line 222) is the empty string, so the walker
returns `SkipDir` at the root (lines 224-226): nothing is ever
dispatched and the merged report is just the configured header line. -/
theorem C10_empty_ignore_token_prunes_everything (flag : Str) (frt : Bool)
    (cfg : Str) (t : FTree) (wr : Str → WorkerResult)
    (h : [] ∈ splitComma flag) :
    walkCands (splitComma flag) frt [] t = []
    ∧ testFilesRun (splitComma flag) frt cfg t wr = some (headerLine cfg) := by
  have hc : walkCands (splitComma flag) frt [] t = [] := by
    cases t with
    | node nm rd fs subs => simp [walkCands, h]
  exact ⟨hc, run_of_no_cands _ _ _ _ _ hc⟩

/-- Witness for C10: the flag `".git,,vendor"` yields an empty token, and
a tree that would otherwise dispatch `a` dispatches nothing. -/
theorem C10_witness :
    [] ∈ splitComma (str ".git,,vendor")
    ∧ walkCands (splitComma (str ".git,,vendor")) false []
        (.node [] true [] [.node (str "a") true [str "a_test.go"] []]) = []
    ∧ testFilesRun (splitComma (str ".git,,vendor")) false (str "count")
        (.node [] true [] [.node (str "a") true [str "a_test.go"] []])
        (fun _ => ⟨true, some (str "mode: count\na.go:1.1,2.2 1 1\n")⟩)
      = some (headerLine (str "count")) := by
  refine ⟨by decide, ?_⟩
  have := C10_empty_ignore_token_prunes_everything (str ".git,,vendor") false
    (str "count")
    (.node [] true [] [.node (str "a") true [str "a_test.go"] []])
    (fun _ => ⟨true, some (str "mode: count\na.go:1.1,2.2 1 1\n")⟩)
    (by decide)
  exact this

-- ### Ancestors of relative paths

/-- `p` is the directory `c` itself, the project root, or an ancestor
directory of `c`: a prefix of `c` ending at a separator boundary. -/
def ancRel (p c : Str) : Prop := p = c ∨ p = [] ∨ (p ++ ['/']) <+: c

/-- A proper ancestor (or the root) of `c`, but not `c` itself. -/
def strictAnc (p c : Str) : Prop := ancRel p c ∧ p ≠ c

lemma strictAnc_nil {p : Str} (h : strictAnc p []) : False := by
  obtain ⟨ha, hne⟩ := h
  rcases ha with rfl | rfl | hpre
  · exact hne rfl
  · exact hne rfl
  · have := hpre.length_le
    simp at this

lemma ancRel_childRel {p r n : Str} (hn2 : '/' ∉ n)
    (h : ancRel p (childRel r n)) : p = childRel r n ∨ ancRel p r := by
  rcases h with rfl | rfl | hpre
  · exact Or.inl rfl
  · exact Or.inr (Or.inr (Or.inl rfl))
  · by_cases hr : r = []
    · subst hr
      rw [childRel, if_pos rfl] at hpre
      exact absurd (hpre.subset (by simp)) hn2
    · have hchild : childRel r n = (r ++ ['/']) ++ n := by
        simp [childRel, hr, List.append_assoc]
      rw [hchild] at hpre
      rcases Nat.lt_or_ge p.length r.length with hlt | hge
      · have h1 : p ++ ['/'] <+: r ++ ['/'] :=
          List.prefix_of_prefix_length_le hpre (List.prefix_append _ _)
            (by simp; omega)
        have h2 : p ++ ['/'] <+: r := by
          apply List.prefix_of_prefix_length_le h1 (List.prefix_append r ['/'])
          simp; omega
        exact Or.inr (Or.inr (Or.inr h2))
      · rcases Nat.eq_or_lt_of_le hge with heqlen | hgt
        · have h1 : p ++ ['/'] <+: r ++ ['/'] :=
            List.prefix_of_prefix_length_le hpre (List.prefix_append _ _)
              (by simp; omega)
          have heq2 : p ++ ['/'] = r ++ ['/'] := h1.eq_of_length (by simp; omega)
          have hpr : p = r := by
            have htake := congrArg (List.take p.length) heq2
            rw [List.take_left,
              show List.length p = List.length r from heqlen.symm,
              List.take_left] at htake
            exact htake
          exact Or.inr (Or.inl hpr)
        · obtain ⟨tl, htl⟩ := hpre
          have e1 : List.drop (r.length + 1) ((p ++ ['/']) ++ tl)
              = (List.drop (r.length + 1) p ++ ['/']) ++ tl := by
            rw [List.drop_append_of_le_length (by simp; omega),
              List.drop_append_of_le_length (by omega)]
          have e2 : List.drop (r.length + 1) ((r ++ ['/']) ++ n) = n := by
            have hlen : (r ++ ['/']).length = r.length + 1 := by simp
            rw [← hlen, List.drop_left]
          have hn' : (List.drop (r.length + 1) p ++ ['/']) ++ tl = n := by
            rw [← e1, ← e2, htl]
          exact absurd (by rw [← hn']; simp) hn2

mutual
theorem cands_ign_free : ∀ (t : FTree) (ign : List Str) (frt : Bool) (r : Str),
    wfB t = true → (∀ p, strictAnc p r → p ∉ ign) →
    ∀ c ∈ walkCands ign frt r t, ∀ p, ancRel p c → p ∉ ign
  | .node nm rd fs subs, ign, frt, r, hwf, hanc => by
    intro c hc p hp
    by_cases hr : r ∈ ign
    · simp [walkCands, hr] at hc
    · simp only [walkCands, if_neg hr] at hc
      have hself : ∀ p', ancRel p' r → p' ∉ ign := by
        intro p' hp'
        by_cases hpr : p' = r
        · subst hpr; exact hr
        · exact hanc p' ⟨hp', hpr⟩
      have hsingle : ∀ {x : Str},
          x ∈ (if hasTestHere frt r rd fs = true then [r] else ([] : List Str)) →
          x = r := by
        intro x hx
        rcases Bool.eq_false_or_eq_true (hasTestHere frt r rd fs) with hb | hb <;>
          simp [hb] at hx
        exact hx
      rcases List.mem_append.mp hc with h1 | h2
      · have hcr : c = r := hsingle h1
        subst hcr
        exact hself p hp
      · cases rd with
        | true =>
          rw [if_pos rfl] at h2
          exact candsList_ign_free subs ign frt r (by simpa [wfB] using hwf)
            hself c h2 p hp
        | false =>
          rw [if_neg (by simp)] at h2
          have hcr : c = r := hsingle h2
          subst hcr
          exact hself p hp

theorem candsList_ign_free : ∀ (ts : List FTree) (ign : List Str) (frt : Bool)
    (r : Str), wfLB ts = true → (∀ p, ancRel p r → p ∉ ign) →
    ∀ c ∈ walkCandsList ign frt r ts, ∀ p, ancRel p c → p ∉ ign
  | [], _, _, _, _, _ => by
    intro c hc
    simp [walkCandsList] at hc
  | t :: ts, ign, frt, r, hwf, hanc => by
    intro c hc p hp
    simp only [wfLB, Bool.and_eq_true, Bool.not_eq_true',
      decide_eq_false_iff_not] at hwf
    obtain ⟨⟨⟨hn1, hn2⟩, hwt⟩, hwts⟩ := hwf
    simp only [walkCandsList] at hc
    rcases List.mem_append.mp hc with h1 | h2
    · refine cands_ign_free t ign frt (childRel r t.name) hwt ?_ c h1 p hp
      intro p' hp'
      rcases ancRel_childRel hn2 hp'.1 with heq | hanc'
      · exact absurd heq hp'.2
      · exact hanc p' hanc'
    · exact candsList_ign_free ts ign frt r hwts hanc c h2 p hp
end

mutual
theorem visit_ign_free : ∀ (t : FTree) (ign : List Str) (frt : Bool) (r : Str),
    wfB t = true → (∀ p, strictAnc p r → p ∉ ign) →
    ∀ v ∈ walkVisit ign frt r t, ∀ p, strictAnc p v → p ∉ ign
  | .node nm rd fs subs, ign, frt, r, hwf, hanc => by
    intro v hv p hp
    simp only [walkVisit] at hv
    rcases List.mem_cons.mp hv with rfl | hv'
    · exact hanc p hp
    · by_cases hr : r ∈ ign
      · simp [hr] at hv'
      · rw [if_neg hr] at hv'
        cases rd with
        | true =>
          rw [if_pos rfl] at hv'
          have hself : ∀ p', ancRel p' r → p' ∉ ign := by
            intro p' hp'
            by_cases hpr : p' = r
            · subst hpr; exact hr
            · exact hanc p' ⟨hp', hpr⟩
          exact visitList_ign_free subs ign frt r (by simpa [wfB] using hwf)
            hself v hv' p hp
        | false =>
          rw [if_neg (by simp)] at hv'
          simp at hv'

theorem visitList_ign_free : ∀ (ts : List FTree) (ign : List Str) (frt : Bool)
    (r : Str), wfLB ts = true → (∀ p, ancRel p r → p ∉ ign) →
    ∀ v ∈ walkVisitList ign frt r ts, ∀ p, strictAnc p v → p ∉ ign
  | [], _, _, _, _, _ => by
    intro v hv
    simp [walkVisitList] at hv
  | t :: ts, ign, frt, r, hwf, hanc => by
    intro v hv p hp
    simp only [wfLB, Bool.and_eq_true, Bool.not_eq_true',
      decide_eq_false_iff_not] at hwf
    obtain ⟨⟨⟨hn1, hn2⟩, hwt⟩, hwts⟩ := hwf
    simp only [walkVisitList] at hv
    rcases List.mem_append.mp hv with h1 | h2
    · refine visit_ign_free t ign frt (childRel r t.name) hwt ?_ v h1 p hp
      intro p' hp'
      rcases ancRel_childRel hn2 hp'.1 with heq | hanc'
      · exact absurd heq hp'.2
      · exact hanc p' hanc'
    · exact visitList_ign_free ts ign frt r hwts hanc v h2 p hp
end

/-- C4: with a well-formed tree (directory names nonempty and free of the
separator), no dispatched directory has its own relative path or any
ancestor's relative path (including the root's empty path) in the ignore
map — the membership test of lines 224-226 prunes whole subtrees — and
no directory strictly below an ignored one is ever visited by the walker
at all. -/
theorem C4_no_ignored_candidate_or_descendant (ign : List Str) (frt : Bool)
    (t : FTree) (hwf : wfB t = true) :
    (∀ c ∈ walkCands ign frt [] t, ∀ p, ancRel p c → p ∉ ign)
    ∧ (∀ v ∈ walkVisit ign frt [] t, ∀ p, strictAnc p v → p ∉ ign) :=
  ⟨cands_ign_free t ign frt [] hwf (fun _ hp => (strictAnc_nil hp).elim),
   visit_ign_free t ign frt [] hwf (fun _ hp => (strictAnc_nil hp).elim)⟩

/-- Witness for C4: the default ignore set, a `vendor` directory with a
test file and a nested test directory below it. -/
theorem C4_witness :
    wfB (.node [] true []
      [FTree.node (str "vendor") true [str "v_test.go"]
        [.node (str "sub") true [str "s_test.go"] []],
       FTree.node (str "b") true [str "b_test.go"] []]) = true
    ∧ ((∀ c ∈ walkCands defaultIgnores false []
          (.node [] true []
            [FTree.node (str "vendor") true [str "v_test.go"]
              [.node (str "sub") true [str "s_test.go"] []],
             FTree.node (str "b") true [str "b_test.go"] []]),
          ∀ p, ancRel p c → p ∉ defaultIgnores)
      ∧ (∀ v ∈ walkVisit defaultIgnores false []
          (.node [] true []
            [FTree.node (str "vendor") true [str "v_test.go"]
              [.node (str "sub") true [str "s_test.go"] []],
             FTree.node (str "b") true [str "b_test.go"] []]),
          ∀ p, strictAnc p v → p ∉ defaultIgnores)) :=
  ⟨by decide,
   C4_no_ignored_candidate_or_descendant defaultIgnores false _ (by decide)⟩

/-
### The results channel of `testFiles`

Line 213 creates the results channel with `make(chan []byte)` — a Go
channel without a capacity argument is unbuffered, so a send on it can
only complete simultaneously with a receive (a rendezvous); the channel
buffers nothing.  The main goroutine reaches the drain loop
`for cover := range out` (lines 262-264) immediately after spawning the
closer goroutine (lines 255-258); only the closer waits on `wg.Wait()`.
Each worker sends its artifact at line 209 and its deferred `wg.Done()`
(line 173) runs afterwards, so a worker signals completion only after
its delivery has been received.
-/

/-- The capacity of the results channel `out` (line 213): `make` is
called without a capacity argument. -/
def outChanCapacity : Nat := 0

/-- Counters of the delivery protocol: workers yet to reach their send
(line 209), workers blocked in the send awaiting the rendezvous, workers
whose send completed but whose deferred `wg.Done()` has not yet run,
completed `wg.Done()` calls, and values received by the drain loop
(lines 262-264). -/
structure AggState where
  toSend : Nat
  waiting : Nat
  sent : Nat
  done : Nat
  received : Nat
deriving DecidableEq

/-- One scheduler step of the delivery protocol as the code implements
it: a worker reaches its send and blocks (`reach`); the main goroutine's
drain loop, running concurrently from the start, completes a rendezvous
with one blocked sender on the capacity-0 channel (`handoff`); a worker
whose send completed runs its deferred `wg.Done()` (`signal`). -/
inductive AggStep : AggState → AggState → Prop
  | reach (t w s d r : Nat) :
      AggStep ⟨t + 1, w, s, d, r⟩ ⟨t, w + 1, s, d, r⟩
  | handoff (t w s d r : Nat) :
      AggStep ⟨t, w + 1, s, d, r⟩ ⟨t, w, s + 1, d, r + 1⟩
  | signal (t w s d r : Nat) :
      AggStep ⟨t, w, s + 1, d, r⟩ ⟨t, w, s, d + 1, r⟩

/-- C7 counterexample: the results channel is unbuffered (capacity 0, so
it cannot hold even one in-flight delivery), and with a single worker
the drain loop completes a receive while the completion count is still
zero — the Aggregator does not wait for workers to signal completion
before draining.  Indeed the worker blocks in its send until that
receive happens, and its `wg.Done()` can only run afterwards, so a drain
gated on completion of all workers could never start. -/
theorem C7_counterexample :
    outChanCapacity = 0
    ∧ Relation.ReflTransGen AggStep ⟨1, 0, 0, 0, 0⟩ ⟨0, 0, 1, 0, 1⟩ :=
  ⟨rfl,
   Relation.ReflTransGen.head (AggStep.reach 0 0 0 0 0)
     (Relation.ReflTransGen.single (AggStep.handoff 0 0 0 0 0))⟩

lemma agg_progress : ∀ (n d r : Nat),
    Relation.ReflTransGen AggStep ⟨n, 0, 0, d, r⟩ ⟨0, 0, 0, d + n, r + n⟩ := by
  intro n
  induction n with
  | zero =>
    intro d r
    exact Relation.ReflTransGen.refl
  | succ k ih =>
    intro d r
    have s1 := AggStep.reach k 0 0 d r
    have s2 := AggStep.handoff k 0 0 d r
    have s3 := AggStep.signal k 0 0 d (r + 1)
    have htail := ih (d + 1) (r + 1)
    have heq : (⟨0, 0, 0, d + 1 + k, r + 1 + k⟩ : AggState)
        = ⟨0, 0, 0, d + (k + 1), r + (k + 1)⟩ := by
      rw [show d + 1 + k = d + (k + 1) by omega, show r + 1 + k = r + (k + 1) by omega]
    rw [heq] at htail
    exact Relation.ReflTransGen.head s1
      (Relation.ReflTransGen.head s2 (Relation.ReflTransGen.head s3 htail))

/-- C7 amended: the results channel is unbuffered, so each worker blocks
at its send until the main goroutine's drain loop — which runs
concurrently with the workers from the start, not after they complete —
receives its artifact; every delivery is received before the delivering
worker signals completion, and every fan-out of `n` workers can run to
the terminal state where all `n` artifacts have been received and all
`n` completions signalled (after which the closer goroutine closes the
channel and the drain loop ends). -/
theorem C7_amended_concurrent_drain (n : Nat) :
    Relation.ReflTransGen AggStep ⟨n, 0, 0, 0, 0⟩ ⟨0, 0, 0, n, n⟩ := by
  have h := agg_progress n 0 0
  rw [show (0 : Nat) + n = n from Nat.zero_add n] at h
  exact h
